import Mathlib

/-!
# Verification of the z3-wordle-solver core

A shallow embedding of `wordle_api_solver_norvig.py` and
`wordle_words_nltk.py`.  Words are `List Char`; per-slot feedback records
mirror the JSON items `(slot, guess, result)` returned by the evaluator;
the z3 solver state is embedded as an explicit list of constraints over an
integer model, and the two external collaborators (the Wordle API behind
`make_guess` and the z3 `check`/`model` step) are oracle parameters of the
solve loop.  Character handling is at the ASCII level, matching the
lowercase a-z alphabet the solver works over.
-/

set_option maxHeartbeats 1000000

namespace WordleSolver

/-- The per-slot outcome carried by one feedback record
(`item["result"]` in the Python source). -/
inductive GuessOutcome where
  | correct
  | present
  | absent
  deriving DecidableEq

/-- One feedback record, mirroring the dict
`(slot = item["slot"], guess = item["guess"], result = item["result"])`
consumed by `process_guess_result`. -/
structure FeedbackItem where
  slot : Nat
  guess : Char
  result : GuessOutcome
  deriving DecidableEq

/-- `guess_char_freq` of `process_guess_result`: occurrences of `c` in the
guess word. -/
def guess_char_freq (guess : List Char) (c : Char) : Nat :=
  guess.count c

/-- `present_correct_freq` of `process_guess_result`: the number of feedback
items marking character `c` as `correct` or `present`.  A Python dict holds
the count; `c in present_correct_freq` corresponds to a nonzero count. -/
def present_correct_freq (fb : List FeedbackItem) (c : Char) : Nat :=
  fb.countP (fun it => (it.result == GuessOutcome.correct
    || it.result == GuessOutcome.present) && it.guess == c)

/-- Number of feedback items marking character `c` as `present`. -/
def presentCount (fb : List FeedbackItem) (c : Char) : Nat :=
  fb.countP (fun it => it.result == GuessOutcome.present && it.guess == c)

/-- Number of feedback items marking character `c` as `correct`. -/
def correctCount (fb : List FeedbackItem) (c : Char) : Nat :=
  fb.countP (fun it => it.result == GuessOutcome.correct && it.guess == c)

/-- The four-component return value of `process_guess_result`.  The Python
sets (`guess_character_not_in_answer`, `guess_character_in_answer_at_most`)
are embedded as duplicate-free lists; Python set iteration order is
unspecified, so only membership is meaningful. -/
structure DerivedConstraints where
  not_in_answer : List Char
  right_position : List (Nat × Char)
  wrong_position : List (Nat × Char)
  at_most : List (Nat × Char × Nat)
  deriving DecidableEq

/-- `process_guess_result guess guess_result` from
`wordle_api_solver_norvig.py` (lines 65-133).  First pass: items marked
`correct` / `present` are collected in order; second pass: an `absent` item
whose character has a nonzero present/correct count contributes an
`at_most` triple when the guess holds more copies than were proven,
otherwise the character is excluded everywhere. -/
def process_guess_result (guess : List Char) (fb : List FeedbackItem) :
    DerivedConstraints where
  not_in_answer :=
    ((fb.filter (fun it => it.result == GuessOutcome.absent
      && present_correct_freq fb it.guess == 0)).map (fun it => it.guess)).dedup
  right_position :=
    (fb.filter (fun it => it.result == GuessOutcome.correct)).map
      (fun it => (it.slot, it.guess))
  wrong_position :=
    (fb.filter (fun it => it.result == GuessOutcome.present)).map
      (fun it => (it.slot, it.guess))
  at_most :=
    ((fb.filter (fun it => it.result == GuessOutcome.absent
      && present_correct_freq fb it.guess != 0
      && decide (present_correct_freq fb it.guess < guess_char_freq guess it.guess))).map
      (fun it => (it.slot, it.guess, present_correct_freq fb it.guess))).dedup

/-- Pairs every slot index with the guess character and the secret
character at that slot. -/
def zipSlots : Nat → List Char → List Char → List (Nat × Char × Char)
  | _, [], _ => []
  | _, _ :: _, [] => []
  | k, g :: gs, s :: ss => (k, g, s) :: zipSlots (k + 1) gs ss

/-- Number of slots where guess and secret agree on the character `c`. -/
def cmatches (L : List (Nat × Char × Char)) (c : Char) : Nat :=
  L.countP (fun t => t.2.1 == t.2.2 && t.2.1 == c)

/-- Number of slots whose secret character is `c`. -/
def scount (L : List (Nat × Char × Char)) (c : Char) : Nat :=
  L.countP (fun t => t.2.2 == c)

/-- Marking pass of the evaluator model: walks the slots in order with the
remaining per-character budget `rem` of not-yet-accounted secret
occurrences; an exact match is `correct`, otherwise a positive budget
yields `present` and consumes one unit, else `absent`. -/
def markSlots : List (Nat × Char × Char) → (Char → Nat) → List FeedbackItem
  | [], _ => []
  | (i, g, s) :: rest, rem =>
    if g = s then ⟨i, g, GuessOutcome.correct⟩ :: markSlots rest rem
    else if 0 < rem g then
      ⟨i, g, GuessOutcome.present⟩ ::
        markSlots rest (fun c => if c = g then rem c - 1 else rem c)
    else ⟨i, g, GuessOutcome.absent⟩ :: markSlots rest rem

/-- Modelled from the spec: the external evaluator (the Wordle API behind
`make_guess`, which is not part of this repository) produces the standard
Wordle feedback — exact matches are `correct`, and among the remaining
slots, left to right, as many occurrences of a character are marked
`present` as the secret has unmatched occurrences; "the evaluator marks
only the excess occurrences as absent". -/
def feedback (G S : List Char) : List FeedbackItem :=
  markSlots (zipSlots 0 G S)
    (fun c => scount (zipSlots 0 G S) c - cmatches (zipSlots 0 G S) c)

/-- The secret has character `p.2` at slot `p.1` (a `fixed_position`
constraint holds of `S`). -/
def satisfies_fixed (S : List Char) (p : Nat × Char) : Prop :=
  S[p.1]? = some p.2

/-- The secret holds `p.2` at some slot other than `p.1` and not at `p.1`
(a `present_elsewhere` constraint holds of `S`). -/
def satisfies_present (S : List Char) (p : Nat × Char) : Prop :=
  S[p.1]? ≠ some p.2 ∧ ∃ j ∈ List.range S.length, j ≠ p.1 ∧ S[j]? = some p.2

/-- The secret contains no occurrence of `c` (an `excluded_everywhere`
constraint holds of `S`). -/
def satisfies_excluded (S : List Char) (c : Char) : Prop :=
  S.count c = 0

/-- The secret contains `t.2.1` at most `t.2.2` times and not at slot
`t.1` (a `bounded_count` constraint holds of `S`). -/
def satisfies_at_most (S : List Char) (t : Nat × Char × Nat) : Prop :=
  S.count t.2.1 ≤ t.2.2 ∧ S[t.1]? ≠ some t.2.1

/-- Every constraint of the Derived Constraint Set `d` is satisfied by the
secret `S`. -/
def SoundFor (S : List Char) (d : DerivedConstraints) : Prop :=
  (∀ p ∈ d.right_position, satisfies_fixed S p) ∧
  (∀ p ∈ d.wrong_position, satisfies_present S p) ∧
  (∀ c ∈ d.not_in_answer, satisfies_excluded S c) ∧
  (∀ t ∈ d.at_most, satisfies_at_most S t)

instance (S : List Char) (d : DerivedConstraints) : Decidable (SoundFor S d) := by
  unfold SoundFor satisfies_fixed satisfies_present satisfies_excluded satisfies_at_most
  infer_instance

/-- `ANSWER_LEN = 5`: the word length. -/
def ANSWER_LEN : Nat := 5

/-- `ALPHABET_RANGE = False`: no explicit per-slot 0-25 range constraint is
asserted. -/
def ALPHABET_RANGE : Bool := false

/-- `VALID_GUESS_COUNT = 10`: the attempt budget. -/
def VALID_GUESS_COUNT : Nat := 10

/-- `NORVIG_GUESSES`: the fixed opening guesses of Strategy 22. -/
def NORVIG_GUESSES : List (List Char) :=
  ["handy".toList, "swift".toList, "glove".toList, "crump".toList]

/-- `ord(c) - 97`, the integer the solver uses for a letter. -/
def charVal (c : Char) : Int := (c.toNat : Int) - 97

/-- One hard constraint handed to the z3 solver.  `geAt`/`leAt` are the
optional range assertions, `eqAt` a slot equality, `neAt` a slot
disequality, `someOther i v` the disjunction that `v` occurs at a slot
other than `i`, `atMostCount v k` the `z3.AtMost` cardinality assertion,
and `wordDisj` the vocabulary legality disjunction. -/
inductive ZConstraint where
  | geAt (i : Nat) (v : Int)
  | leAt (i : Nat) (v : Int)
  | eqAt (i : Nat) (v : Int)
  | neAt (i : Nat) (v : Int)
  | someOther (i : Nat) (v : Int)
  | atMostCount (v : Int) (k : Nat)
  | wordDisj (vocab : List (List Char))
  deriving DecidableEq

/-- Truth of one constraint in a model `m` assigning an integer to each
letter variable. -/
def evalConstraint (m : Nat → Int) : ZConstraint → Bool
  | ZConstraint.geAt i v => decide (v ≤ m i)
  | ZConstraint.leAt i v => decide (m i ≤ v)
  | ZConstraint.eqAt i v => m i == v
  | ZConstraint.neAt i v => m i != v
  | ZConstraint.someOther i v =>
    (List.range ANSWER_LEN).any (fun j => j != i && m j == v)
  | ZConstraint.atMostCount v k =>
    decide ((List.range ANSWER_LEN).countP (fun j => m j == v) ≤ k)
  | ZConstraint.wordDisj vocab =>
    vocab.any (fun w => (List.range w.length).all (fun i => m i == charVal (w.getD i ' ')))

/-- A model satisfies every hard constraint of the accumulated solver
state. -/
def satisfiesAll (m : Nat → Int) (cs : List ZConstraint) : Bool :=
  cs.all (evalConstraint m)

/-- The per-slot 0-25 range assertions added only when `ALPHABET_RANGE`
is set. -/
def rangeConstraints : List ZConstraint :=
  (List.range ANSWER_LEN).flatMap (fun i => [ZConstraint.geAt i 0, ZConstraint.leAt i 25])

/-- Solver initialisation (lines 150-164): the optional range constraints
and the legality disjunction over the length-5 words of the vocabulary. -/
def initConstraints (vocab : List (List Char)) : List ZConstraint :=
  (if ALPHABET_RANGE then rangeConstraints else [])
  ++ [ZConstraint.wordDisj (vocab.filter (fun w => w.length == ANSWER_LEN))]

/-- The constraints added for the `at_most` component (lines 229-241): a
slot disequality for every triple, and one `AtMost` cardinality assertion
per character, deduplicated through the `letters_processed` set. -/
def atMostConstraints : List (Nat × Char × Nat) → List Char → List ZConstraint
  | [], _ => []
  | (i, c, f) :: rest, processed =>
    if c ∈ processed then ZConstraint.neAt i (charVal c) :: atMostConstraints rest processed
    else ZConstraint.neAt i (charVal c) :: ZConstraint.atMostCount (charVal c) f ::
      atMostConstraints rest (c :: processed)

/-- All hard constraints one guess merge adds (lines 209-241 and the
identical lines 282-314). -/
def guessConstraints (d : DerivedConstraints) : List ZConstraint :=
  (d.right_position.map (fun p => ZConstraint.eqAt p.1 (charVal p.2)))
  ++ (d.wrong_position.flatMap (fun p =>
    [ZConstraint.neAt p.1 (charVal p.2), ZConstraint.someOther p.1 (charVal p.2)]))
  ++ (d.not_in_answer.flatMap (fun c =>
    (List.range ANSWER_LEN).map (fun i => ZConstraint.neAt i (charVal c))))
  ++ atMostConstraints d.at_most []

/-- Merging a Derived Constraint Set into the accumulated solver state:
`solver.add` only ever appends hard constraints. -/
def mergeConstraints (cs : List ZConstraint) (d : DerivedConstraints) : List ZConstraint :=
  cs ++ guessConstraints d

/-- The characters (as solver integers) of the `AtMost` cardinality
assertions in a constraint list. -/
def atMostChars (cs : List ZConstraint) : List Int :=
  cs.filterMap (fun c => match c with
    | ZConstraint.atMostCount v _ => some v
    | _ => none)

/-- The 26-letter alphabet string of `solve_wordle_api_norvig`. -/
def alphabet : List Char := "abcdefghijklmnopqrstuvwxyz".toList

/-- Python list indexing: nonnegative indices within bounds, negative
indices counting from the end, `none` for an `IndexError`. -/
def pythonListIdx (l : List Char) (i : Int) : Option Char :=
  if 0 ≤ i then l[i.toNat]?
  else if -(l.length : Int) ≤ i then l[((l.length : Int) + i).toNat]?
  else none

/-- Renders the model characters for the given variable indices;
`none` as soon as one index leaves the alphabet. -/
def renderChars (m : Nat → Int) : List Nat → Option (List Char)
  | [] => some []
  | i :: rest =>
    match pythonListIdx alphabet (m i), renderChars m rest with
    | some c, some cs => some (c :: cs)
    | _, _ => none

/-- `get_current_model_word` (lines 45-49): joins
`alphabet[model[letter].as_long()]` over the five letter variables; a
failing index (Python `IndexError`) is `none`. -/
def get_current_model_word (m : Nat → Int) : Option (List Char) :=
  renderChars m (List.range ANSWER_LEN)

/-- Which branch ended the session: an all-correct guess (`WINNER!`), an
unsat solver state, a failed evaluator call in the adaptive loop, the
exhausted attempt budget, or a failing alphabet index while rendering. -/
inductive StopReason where
  | won
  | unsatisfiable
  | apiFailure
  | budgetExhausted
  | renderFailure
  deriving DecidableEq

/-- The embedded `Result` value: the guesses made, the reason the session
ended, and the solver state at the end.  Wall-clock time is not
modelled. -/
structure SolveOutcome where
  guesses : List (List Char)
  reason : StopReason
  finalConstraints : List ZConstraint
  deriving DecidableEq

/-- The loop state of a solve session: the `guessed` list and the solver
constraints so far. -/
structure SolveState where
  guessed : List (List Char)
  constraints : List ZConstraint
  deriving DecidableEq

/-- `all(item["result"] == "correct" for item in guess_result)`. -/
def allCorrect (fb : List FeedbackItem) : Bool :=
  fb.all (fun it => it.result == GuessOutcome.correct)

/-- The fixed opening-guess loop (lines 184-241).  A failing evaluator
call returns `none` — the Python code returns `None` there, discarding the
guess history; a fully correct feedback returns the `Won` outcome;
otherwise the derived constraints are merged and the next opening guess is
taken. -/
def openingPhase (api : List Char → Option (List FeedbackItem)) :
    List (List Char) → SolveState → Option (SolveState ⊕ SolveOutcome)
  | [], st => some (Sum.inl st)
  | g :: rest, st =>
    match api g with
    | none => none
    | some fb =>
      if allCorrect fb then
        some (Sum.inr ⟨st.guessed ++ [g], StopReason.won, st.constraints⟩)
      else
        openingPhase api rest
          ⟨st.guessed ++ [g], mergeConstraints st.constraints (process_guess_result g fb)⟩

/-- The adaptive loop (lines 247-314): while fewer than
`VALID_GUESS_COUNT` guesses were made, ask the solver oracle for a model
(`none` embeds a non-`sat` check), render the guess, submit it, and either
stop (win, failure) or merge the derived constraints and continue.  The
guess is appended to `guessed` before the evaluator call, as in the
source. -/
def adaptiveLoop (api : List Char → Option (List FeedbackItem))
    (zmodel : List ZConstraint → Option (Nat → Int)) (st : SolveState) : SolveOutcome :=
  if h : st.guessed.length < VALID_GUESS_COUNT then
    match zmodel st.constraints with
    | none => ⟨st.guessed, StopReason.unsatisfiable, st.constraints⟩
    | some m =>
      match get_current_model_word m with
      | none => ⟨st.guessed, StopReason.renderFailure, st.constraints⟩
      | some g =>
        match api g with
        | none => ⟨st.guessed ++ [g], StopReason.apiFailure, st.constraints⟩
        | some fb =>
          if allCorrect fb then ⟨st.guessed ++ [g], StopReason.won, st.constraints⟩
          else adaptiveLoop api zmodel
            ⟨st.guessed ++ [g], mergeConstraints st.constraints (process_guess_result g fb)⟩
  else ⟨st.guessed, StopReason.budgetExhausted, st.constraints⟩
termination_by VALID_GUESS_COUNT - st.guessed.length
decreasing_by simp [VALID_GUESS_COUNT] at *; omega

/-- `solve_wordle_api_norvig` (lines 136-318), parameterised by the two
external collaborators (evaluator and solver oracle) and the vocabulary
`COMMON_WORDS` (supplied by the corpus-dependent `wordle_words` module):
opening phase over `NORVIG_GUESSES`, then the adaptive loop. -/
def solve_wordle_api_norvig (api : List Char → Option (List FeedbackItem))
    (zmodel : List ZConstraint → Option (Nat → Int))
    (vocab : List (List Char)) : Option SolveOutcome :=
  match openingPhase api NORVIG_GUESSES ⟨[], initConstraints vocab⟩ with
  | none => none
  | some (Sum.inr r) => some r
  | some (Sum.inl st) => some (adaptiveLoop api zmodel st)

/-- ASCII-level model of Python `str.isalpha` for the characters this
program meets (mirrors `Char.isAlpha`). -/
def pyIsAlpha (c : Char) : Bool :=
  decide ((65 ≤ c.toNat ∧ c.toNat ≤ 90) ∨ (97 ≤ c.toNat ∧ c.toNat ≤ 122))

/-- `word.isalpha()`: nonempty and all characters alphabetic. -/
def pyIsAlphaWord (w : List Char) : Bool :=
  !w.isEmpty && w.all pyIsAlpha

/-- `word.lower()` at the ASCII level, character by character via the
core `Char.toLower`. -/
def pyLowerWord (w : List Char) : List Char :=
  w.map Char.toLower

/-- `[word.lower() for word in all_words if len(word) == 5 and
word.isalpha()]` from `get_wordle_word_lists`. -/
def five_letter_words (corpus : List (List Char)) : List (List Char) :=
  (corpus.filter (fun w => w.length == 5 && pyIsAlphaWord w)).map pyLowerWord

/-- `sorted(set(five_letter_words))`: the duplicate-free list sorted in
lexicographic order (Python compares strings by code point, which is the
lexicographic order on `List Char`). -/
def sorted_words (corpus : List (List Char)) : List (List Char) :=
  List.insertionSort (· ≤ ·) (five_letter_words corpus).dedup

/-- `int(len(sorted_words) * 0.20)`.  For every list length below `2^52`
the floating-point product truncates to exactly `len / 5`, here written
`len * 20 / 100`. -/
def answers_count (corpus : List (List Char)) : Nat :=
  (sorted_words corpus).length * 20 / 100

/-- `get_wordle_word_lists` of `wordle_words_nltk.py` (lines 7-39),
parameterised by the NLTK corpus: the first 20% of the sorted
duplicate-free lowercased 5-letter words are the answers, the rest the
valid guesses. -/
def get_wordle_word_lists (corpus : List (List Char)) :
    List (List Char) × List (List Char) :=
  ((sorted_words corpus).take (answers_count corpus),
   (sorted_words corpus).drop (answers_count corpus))

/-- All-correct feedback for the word `handy`. -/
def handyCorrectFeedback : List FeedbackItem :=
  [⟨0, 'h', GuessOutcome.correct⟩, ⟨1, 'a', GuessOutcome.correct⟩,
   ⟨2, 'n', GuessOutcome.correct⟩, ⟨3, 'd', GuessOutcome.correct⟩,
   ⟨4, 'y', GuessOutcome.correct⟩]

/-- All-absent feedback for the word `handy`. -/
def handyAbsentFeedback : List FeedbackItem :=
  [⟨0, 'h', GuessOutcome.absent⟩, ⟨1, 'a', GuessOutcome.absent⟩,
   ⟨2, 'n', GuessOutcome.absent⟩, ⟨3, 'd', GuessOutcome.absent⟩,
   ⟨4, 'y', GuessOutcome.absent⟩]

/-- All-correct feedback for the word `aaaaa`. -/
def aaaaaCorrectFeedback : List FeedbackItem :=
  [⟨0, 'a', GuessOutcome.correct⟩, ⟨1, 'a', GuessOutcome.correct⟩,
   ⟨2, 'a', GuessOutcome.correct⟩, ⟨3, 'a', GuessOutcome.correct⟩,
   ⟨4, 'a', GuessOutcome.correct⟩]

/-- Demo evaluator: `handy` wins at once, everything else fails. -/
def demoApiHandyWins (g : List Char) : Option (List FeedbackItem) :=
  if g = "handy".toList then some handyCorrectFeedback else none

/-- Demo evaluator: `handy` gets all-absent feedback, the next call
fails. -/
def demoApiHandyThenFail (g : List Char) : Option (List FeedbackItem) :=
  if g = "handy".toList then some handyAbsentFeedback else none

/-- Demo evaluator: `aaaaa` wins at once, everything else fails. -/
def demoApiAaaaaWins (g : List Char) : Option (List FeedbackItem) :=
  if g = "aaaaa".toList then some aaaaaCorrectFeedback else none

/-- Demo solver oracle: always returns the all-zero model (the word
`aaaaa`). -/
def demoZModelZero : List ZConstraint → Option (Nat → Int) :=
  fun _ => some (fun _ => 0)

/-- The solver model encoding the word `allot`. -/
def demoModelAllot : Nat → Int :=
  fun i => (([0, 11, 11, 14, 19] : List Int).getD i 0)

/-- A one-word demo vocabulary. -/
def demoVocab : List (List Char) := ["allot".toList]

/-- The initial solver state over the demo vocabulary. -/
def demoCs : List ZConstraint :=
  [ZConstraint.wordDisj (demoVocab.filter (fun w => w.length == ANSWER_LEN))]

/-- A demo accumulated constraint list. -/
def demoBaseCs : List ZConstraint := [ZConstraint.eqAt 2 11]

/-- A small demo corpus for the word-list function. -/
def demoCorpus : List (List Char) := ["Apple".toList, "zebra".toList, "ax".toList]

theorem present_correct_freq_split (fb : List FeedbackItem) (c : Char) :
    present_correct_freq fb c = correctCount fb c + presentCount fb c := by
  induction fb with
  | nil => rfl
  | cons it rest ih =>
    unfold present_correct_freq correctCount presentCount at *
    rw [List.countP_cons, List.countP_cons, List.countP_cons]
    cases hr : it.result <;> by_cases hg : it.guess = c <;> simp [hg] <;> omega

theorem markSlots_mem {it : FeedbackItem} :
    ∀ (L : List (Nat × Char × Char)) (rem : Char → Nat),
    it ∈ markSlots L rem →
    ∃ s, (it.slot, it.guess, s) ∈ L ∧
      (it.result = GuessOutcome.correct → it.guess = s) ∧
      (it.result = GuessOutcome.present → it.guess ≠ s ∧ 0 < rem it.guess) ∧
      (it.result = GuessOutcome.absent → it.guess ≠ s) := by
  intro L
  induction L with
  | nil => intro rem h; simp [markSlots] at h
  | cons t rest ih =>
    obtain ⟨i, g, s⟩ := t
    intro rem h
    rw [markSlots] at h
    by_cases hgs : g = s
    · rw [if_pos hgs] at h
      rcases List.mem_cons.mp h with h1 | h1
      · subst h1
        exact ⟨s, by simp, fun _ => hgs, by simp, by simp⟩
      · obtain ⟨s', hmem, hc, hp, ha⟩ := ih rem h1
        exact ⟨s', List.mem_cons_of_mem _ hmem, hc, hp, ha⟩
    · rw [if_neg hgs] at h
      by_cases hrg : 0 < rem g
      · rw [if_pos hrg] at h
        rcases List.mem_cons.mp h with h1 | h1
        · subst h1
          exact ⟨s, by simp, by simp, fun _ => ⟨hgs, hrg⟩, by simp⟩
        · obtain ⟨s', hmem, hc, hp, ha⟩ := ih _ h1
          refine ⟨s', List.mem_cons_of_mem _ hmem, hc, fun hpr => ?_, ha⟩
          obtain ⟨h1', h2'⟩ := hp hpr
          refine ⟨h1', lt_of_lt_of_le h2' ?_⟩
          by_cases hx : it.guess = g
          · simp [hx]
          · simp [hx]
      · rw [if_neg hrg] at h
        rcases List.mem_cons.mp h with h1 | h1
        · subst h1
          exact ⟨s, by simp, by simp, by simp, fun _ => hgs⟩
        · obtain ⟨s', hmem, hc, hp, ha⟩ := ih rem h1
          exact ⟨s', List.mem_cons_of_mem _ hmem, hc, hp, ha⟩

theorem presentCount_markSlots_le :
    ∀ (L : List (Nat × Char × Char)) (rem : Char → Nat) (c : Char),
    presentCount (markSlots L rem) c ≤ rem c := by
  intro L
  induction L with
  | nil => intro rem c; simp [markSlots, presentCount]
  | cons t rest ih =>
    obtain ⟨i, g, s⟩ := t
    intro rem c
    rw [markSlots]
    by_cases hgs : g = s
    · rw [if_pos hgs]
      unfold presentCount at *
      rw [List.countP_cons]
      simpa using ih rem c
    · rw [if_neg hgs]
      by_cases hrg : 0 < rem g
      · rw [if_pos hrg]
        unfold presentCount at *
        rw [List.countP_cons]
        have h1 := ih (fun x => if x = g then rem x - 1 else rem x) c
        by_cases hgc : c = g
        · subst hgc
          simp at h1
          simp only [List.countP_cons] at *
          simp
          omega
        · simp only [if_neg hgc] at h1
          simp [Ne.symm hgc]
          omega
      · rw [if_neg hrg]
        unfold presentCount at *
        rw [List.countP_cons]
        simpa using ih rem c

theorem presentCount_markSlots_absent :
    ∀ (L : List (Nat × Char × Char)) (rem : Char → Nat) (c : Char),
    (∃ it ∈ markSlots L rem, it.result = GuessOutcome.absent ∧ it.guess = c) →
    presentCount (markSlots L rem) c = rem c := by
  intro L
  induction L with
  | nil => intro rem c h; simp [markSlots] at h
  | cons t rest ih =>
    obtain ⟨i, g, s⟩ := t
    intro rem c h
    rw [markSlots] at *
    by_cases hgs : g = s
    · rw [if_pos hgs] at *
      obtain ⟨it, hmem, hres, hg⟩ := h
      rcases List.mem_cons.mp hmem with h1 | h1
      · subst h1; simp at hres
      · have := ih rem c ⟨it, h1, hres, hg⟩
        unfold presentCount at *
        rw [List.countP_cons]
        simpa using this
    · rw [if_neg hgs] at *
      by_cases hrg : 0 < rem g
      · rw [if_pos hrg] at *
        obtain ⟨it, hmem, hres, hg⟩ := h
        rcases List.mem_cons.mp hmem with h1 | h1
        · subst h1; simp at hres
        · have h2 := ih _ c ⟨it, h1, hres, hg⟩
          unfold presentCount at *
          rw [List.countP_cons]
          by_cases hgc : c = g
          · subst hgc
            simp at h2
            simp
            omega
          · simp only [if_neg hgc] at h2
            simp [Ne.symm hgc]
            omega
      · rw [if_neg hrg] at *
        obtain ⟨it, hmem, hres, hg⟩ := h
        unfold presentCount at *
        rw [List.countP_cons]
        rcases List.mem_cons.mp hmem with h1 | h1
        · subst h1
          have hbound := presentCount_markSlots_le rest rem c
          unfold presentCount at hbound
          simp at hg
          subst hg
          simp
          omega
        · have := ih rem c ⟨it, h1, hres, hg⟩
          simpa using this

theorem correctCount_markSlots :
    ∀ (L : List (Nat × Char × Char)) (rem : Char → Nat) (c : Char),
    correctCount (markSlots L rem) c = cmatches L c := by
  intro L
  induction L with
  | nil => intro rem c; simp [markSlots, correctCount, cmatches]
  | cons t rest ih =>
    obtain ⟨i, g, s⟩ := t
    intro rem c
    rw [markSlots]
    unfold correctCount cmatches at *
    by_cases hgs : g = s
    · rw [if_pos hgs]
      rw [List.countP_cons, List.countP_cons]
      by_cases hgc : g = c <;> simp [hgs, hgc, ih]
    · rw [if_neg hgs]
      by_cases hrg : 0 < rem g
      · rw [if_pos hrg]
        rw [List.countP_cons, List.countP_cons]
        simp [hgs, ih]
      · rw [if_neg hrg]
        rw [List.countP_cons, List.countP_cons]
        simp [hgs, ih]

theorem cmatches_le_scount (L : List (Nat × Char × Char)) (c : Char) :
    cmatches L c ≤ scount L c := by
  unfold cmatches scount
  refine List.countP_mono_left fun t _ h => ?_
  simp at h ⊢
  exact h.1 ▸ h.2

theorem zipSlots_mem :
    ∀ (G S : List Char) (k i : Nat) (g s : Char),
    (i, g, s) ∈ zipSlots k G S →
    ∃ j, i = k + j ∧ G[j]? = some g ∧ S[j]? = some s := by
  intro G
  induction G with
  | nil => intro S k i g s h; simp [zipSlots] at h
  | cons g0 gs ih =>
    intro S k i g s h
    cases S with
    | nil => simp [zipSlots] at h
    | cons s0 ss =>
      rw [zipSlots] at h
      rcases List.mem_cons.mp h with h1 | h1
      · rw [Prod.ext_iff, Prod.ext_iff] at h1
        obtain ⟨h2, h3, h4⟩ := h1
        dsimp at h2 h3 h4
        subst h2; subst h3; subst h4
        exact ⟨0, by omega, by simp, by simp⟩
      · obtain ⟨j, hj, hg, hs⟩ := ih ss (k + 1) i g s h1
        exact ⟨j + 1, by omega, by simpa using hg, by simpa using hs⟩

theorem scount_zipSlots :
    ∀ (G S : List Char) (k : Nat) (c : Char), G.length = S.length →
    scount (zipSlots k G S) c = S.count c := by
  intro G
  induction G with
  | nil =>
    intro S k c hlen
    cases S with
    | nil => simp [zipSlots, scount]
    | cons s0 ss => simp at hlen
  | cons g0 gs ih =>
    intro S k c hlen
    cases S with
    | nil => simp at hlen
    | cons s0 ss =>
      rw [zipSlots]
      unfold scount at *
      rw [List.countP_cons, List.count_cons]
      simp at hlen
      rw [ih ss (k + 1) c hlen]

theorem exists_slot_of_count_pos {S : List Char} {c : Char} (h : 0 < S.count c) :
    ∃ j ∈ List.range S.length, S[j]? = some c := by
  have hmem : c ∈ S := List.count_pos_iff.mp h
  obtain ⟨n, hn⟩ := List.getElem?_of_mem hmem
  have hlt : n < S.length := by
    by_contra hge
    rw [List.getElem?_eq_none (by omega)] at hn
    exact Option.noConfusion hn
  exact ⟨n, List.mem_range.mpr hlt, hn⟩

/-- Claim C1: for every secret `S` and guess `G` of the same length over
lowercase letters, every constraint of the Derived Constraint Set produced
by `process_guess_result` from the standard Wordle feedback of `G` against
`S` is satisfied by `S` itself: `S` has the stated character at every
`right_position` slot; for every `wrong_position` pair, `S` holds the
character at some other slot and not at the marked one; no `not_in_answer`
character occurs in `S`; and for every `at_most` triple, `S` holds the
character at most the stated number of times and not at the marked
slot. -/
theorem process_guess_result_sound (G S : List Char) (hlen : G.length = S.length)
    (hG : ∀ c ∈ G, 97 ≤ c.toNat ∧ c.toNat ≤ 122)
    (hS : ∀ c ∈ S, 97 ≤ c.toNat ∧ c.toNat ≤ 122) :
    SoundFor S (process_guess_result G (feedback G S)) := by
  clear hG hS
  have hitem : ∀ it ∈ feedback G S, ∃ s, S[it.slot]? = some s ∧
      (it.result = GuessOutcome.correct → it.guess = s) ∧
      (it.result = GuessOutcome.present → it.guess ≠ s ∧
        0 < scount (zipSlots 0 G S) it.guess - cmatches (zipSlots 0 G S) it.guess) ∧
      (it.result = GuessOutcome.absent → it.guess ≠ s) := by
    intro it hit
    simp only [feedback] at hit
    obtain ⟨s, hmem, hc, hp, ha⟩ := markSlots_mem _ _ hit
    obtain ⟨j, hj, hgj, hsj⟩ := zipSlots_mem G S 0 it.slot it.guess s hmem
    have hjs : it.slot = j := by omega
    rw [hjs]
    exact ⟨s, hsj, hc, hp, ha⟩
  have hpcf : ∀ c, (∃ it ∈ feedback G S, it.result = GuessOutcome.absent ∧ it.guess = c) →
      present_correct_freq (feedback G S) c = S.count c := by
    intro c hex
    simp only [feedback] at hex ⊢
    rw [present_correct_freq_split, correctCount_markSlots,
      presentCount_markSlots_absent _ _ _ hex]
    have h1 := cmatches_le_scount (zipSlots 0 G S) c
    have h2 := scount_zipSlots G S 0 c hlen
    omega
  refine ⟨?_, ?_, ?_, ?_⟩
  · intro p hp
    simp only [process_guess_result, List.mem_map, List.mem_filter] at hp
    obtain ⟨it, ⟨hit, hres⟩, rfl⟩ := hp
    have hres' : it.result = GuessOutcome.correct := by simpa using hres
    obtain ⟨s, hS', hc, _, _⟩ := hitem it hit
    unfold satisfies_fixed
    rw [hS', hc hres']
  · intro p hp
    simp only [process_guess_result, List.mem_map, List.mem_filter] at hp
    obtain ⟨it, ⟨hit, hres⟩, rfl⟩ := hp
    have hres' : it.result = GuessOutcome.present := by simpa using hres
    obtain ⟨s, hS', _, hp2, _⟩ := hitem it hit
    obtain ⟨hne, hrem⟩ := hp2 hres'
    have hcount : 0 < S.count it.guess := by
      have h2 := scount_zipSlots G S 0 it.guess hlen
      omega
    obtain ⟨j, hjr, hj⟩ := exists_slot_of_count_pos hcount
    refine ⟨?_, j, hjr, ?_, hj⟩
    · dsimp
      rw [hS']
      intro hcon
      exact hne (Option.some.inj hcon).symm
    · dsimp
      intro hcon
      rw [hcon] at hj
      rw [hS'] at hj
      exact hne (Option.some.inj hj).symm
  · intro c hc
    simp only [process_guess_result, List.mem_dedup, List.mem_map, List.mem_filter] at hc
    obtain ⟨it, ⟨hit, hcond⟩, rfl⟩ := hc
    have habs : it.result = GuessOutcome.absent := by
      simp only [Bool.and_eq_true, beq_iff_eq] at hcond
      exact hcond.1
    have hzero : present_correct_freq (feedback G S) it.guess = 0 := by
      simp only [Bool.and_eq_true, beq_iff_eq] at hcond
      exact hcond.2
    unfold satisfies_excluded
    rw [← hpcf it.guess ⟨it, hit, habs, rfl⟩]
    exact hzero
  · intro t ht
    simp only [process_guess_result, List.mem_dedup, List.mem_map, List.mem_filter] at ht
    obtain ⟨it, ⟨hit, hcond⟩, rfl⟩ := ht
    have habs : it.result = GuessOutcome.absent := by
      simp only [Bool.and_eq_true, beq_iff_eq, bne_iff_ne, decide_eq_true_eq] at hcond
      exact hcond.1.1
    obtain ⟨s, hS', _, _, ha⟩ := hitem it hit
    constructor
    · dsimp
      rw [hpcf it.guess ⟨it, hit, habs, rfl⟩]
    · dsimp
      rw [hS']
      intro hcon
      exact ha habs (Option.some.inj hcon).symm

/-- Witness for C1 at guess `lolly` against secret `allot`. -/
theorem process_guess_result_sound_witness :
    ("lolly".toList.length = "allot".toList.length) ∧
    SoundFor "allot".toList
      (process_guess_result "lolly".toList (feedback "lolly".toList "allot".toList)) :=
  ⟨by decide, process_guess_result_sound "lolly".toList "allot".toList
    (by decide) (by decide) (by decide)⟩

/-- Claim C2: on the guess `lolly` against the secret `allot` the standard
feedback is `present, present, correct, absent, absent`, and
`process_guess_result` returns exactly `fixed_position (2, l)`,
`present_elsewhere (0, l)` and `(1, o)`, `excluded_everywhere y`, and
`bounded_count (3, l, 2)`, no others; the secret `allot` satisfies all
five. -/
theorem lolly_allot_case :
    feedback "lolly".toList "allot".toList =
      [⟨0, 'l', GuessOutcome.present⟩, ⟨1, 'o', GuessOutcome.present⟩,
       ⟨2, 'l', GuessOutcome.correct⟩, ⟨3, 'l', GuessOutcome.absent⟩,
       ⟨4, 'y', GuessOutcome.absent⟩] ∧
    process_guess_result "lolly".toList (feedback "lolly".toList "allot".toList) =
      ⟨['y'], [(2, 'l')], [(0, 'l'), (1, 'o')], [(3, 'l', 2)]⟩ ∧
    SoundFor "allot".toList
      (process_guess_result "lolly".toList (feedback "lolly".toList "allot".toList)) := by
  exact ⟨by decide, by decide, by decide⟩

/-- Counterexample to C3 as stated: on the guess `geese` against `those`,
the character `e` is correct at slot 4, absent at slots 1 and 2, and the
guess holds three copies against one proven, yet `process_guess_result`
returns two `bounded_count` records for `e`, one per absent slot — they
are not deduplicated by character value before emission. -/
theorem geese_those_two_bounded_counts :
    feedback "geese".toList "those".toList =
      [⟨0, 'g', GuessOutcome.absent⟩, ⟨1, 'e', GuessOutcome.absent⟩,
       ⟨2, 'e', GuessOutcome.absent⟩, ⟨3, 's', GuessOutcome.correct⟩,
       ⟨4, 'e', GuessOutcome.correct⟩] ∧
    guess_char_freq "geese".toList 'e' = 3 ∧
    present_correct_freq (feedback "geese".toList "those".toList) 'e' = 1 ∧
    (process_guess_result "geese".toList (feedback "geese".toList "those".toList)).at_most
      = [(1, 'e', 1), (2, 'e', 1)] ∧
    ¬ ((process_guess_result "geese".toList
        (feedback "geese".toList "those".toList)).at_most.countP
        (fun t => t.2.1 == 'e') ≤ 1) := by
  exact ⟨by decide, by decide, by decide, by decide, by decide⟩

theorem charVal_injective {c d : Char} (h : charVal c = charVal d) : c = d := by
  unfold charVal at h
  have h2 : c.toNat = d.toNat := by omega
  rw [← Char.ofNat_toNat c, ← Char.ofNat_toNat d, h2]

theorem atMostConstraints_nodup_aux :
    ∀ (l : List (Nat × Char × Nat)) (proc : List Char),
    (atMostChars (atMostConstraints l proc)).Nodup ∧
    (∀ v ∈ atMostChars (atMostConstraints l proc), ∀ c ∈ proc, v ≠ charVal c) := by
  intro l
  induction l with
  | nil => intro proc; simp [atMostConstraints, atMostChars]
  | cons t rest ih =>
    obtain ⟨i, c, f⟩ := t
    intro proc
    rw [atMostConstraints]
    by_cases hc : c ∈ proc
    · rw [if_pos hc]
      have h1 : atMostChars (ZConstraint.neAt i (charVal c) :: atMostConstraints rest proc)
          = atMostChars (atMostConstraints rest proc) := by
        simp [atMostChars]
      rw [h1]
      exact ih proc
    · rw [if_neg hc]
      have h1 : atMostChars (ZConstraint.neAt i (charVal c) ::
          ZConstraint.atMostCount (charVal c) f :: atMostConstraints rest (c :: proc))
          = charVal c :: atMostChars (atMostConstraints rest (c :: proc)) := by
        simp [atMostChars]
      rw [h1]
      obtain ⟨ihn, ihp⟩ := ih (c :: proc)
      constructor
      · rw [List.nodup_cons]
        refine ⟨fun hmem => ?_, ihn⟩
        exact ihp _ hmem c (List.mem_cons_self c proc) rfl
      · intro v hv c' hc'
        rcases List.mem_cons.mp hv with h2 | h2
        · subst h2
          intro heq
          exact hc ((charVal_injective heq) ▸ hc')
        · exact ihp v h2 c' (List.mem_cons_of_mem c hc')

/-- Claim C3 as amended: `process_guess_result` may return one
`bounded_count` record per absent slot of a character, so several per
character value; the deduplication by character value happens at merge
time — within one merge, `atMostConstraints` (the embedding of the
`letters_processed` loop) asserts at most one `AtMost` cardinality
constraint per character. -/
theorem atMostConstraints_one_per_char (l : List (Nat × Char × Nat)) :
    (atMostChars (atMostConstraints l [])).Nodup :=
  (atMostConstraints_nodup_aux l []).1

/-- Witness for the amended C3 at the two `e` records of the
`geese`/`those` case. -/
theorem atMostConstraints_one_per_char_witness :
    (atMostChars (atMostConstraints [(1, 'e', 1), (2, 'e', 1)] [])).Nodup := by
  have h := atMostConstraints_one_per_char [(1, 'e', 1), (2, 'e', 1)]
  exact h

/-- Counterexample to C4 as stated: on the guess `sheer` against `eerie`,
both `e`s of the guess are marked `present`, so `process_guess_result`
emits no `bounded_count` record at all — in particular none capping `e` —
even though it also, correctly, does not exclude `e` everywhere. -/
theorem sheer_eerie_no_bounded_count :
    (process_guess_result "sheer".toList (feedback "sheer".toList "eerie".toList)).at_most
      = [] ∧
    'e' ∉ (process_guess_result "sheer".toList
      (feedback "sheer".toList "eerie".toList)).not_in_answer := by
  exact ⟨by decide, by decide⟩

/-- Claim C4 as amended: on `sheer` against `eerie` the feedback marks
`s`, `h` absent and `e`, `e`, `r` present; `process_guess_result` emits no
`excluded_everywhere` entry for `e` — only for `s` and `h` — and, since
the guess has no absent `e` slot, no `bounded_count` entry either: the
two present marks alone record the information about `e`. -/
theorem sheer_eerie_constraints :
    feedback "sheer".toList "eerie".toList =
      [⟨0, 's', GuessOutcome.absent⟩, ⟨1, 'h', GuessOutcome.absent⟩,
       ⟨2, 'e', GuessOutcome.present⟩, ⟨3, 'e', GuessOutcome.present⟩,
       ⟨4, 'r', GuessOutcome.present⟩] ∧
    process_guess_result "sheer".toList (feedback "sheer".toList "eerie".toList) =
      ⟨['s', 'h'], [], [(2, 'e'), (3, 'e'), (4, 'r')], []⟩ := by
  exact ⟨by decide, by decide⟩

theorem openingPhase_win (api : List Char → Option (List FeedbackItem))
    (g : List Char) (rest : List (List Char)) (st : SolveState) (fb : List FeedbackItem)
    (hapi : api g = some fb) (hwin : allCorrect fb = true) :
    openingPhase api (g :: rest) st =
      some (Sum.inr ⟨st.guessed ++ [g], StopReason.won, st.constraints⟩) := by
  rw [openingPhase, hapi]
  simp [hwin]

theorem adaptiveLoop_win (api : List Char → Option (List FeedbackItem))
    (zmodel : List ZConstraint → Option (Nat → Int)) (st : SolveState)
    (m : Nat → Int) (g : List Char) (fb : List FeedbackItem)
    (hlen : st.guessed.length < VALID_GUESS_COUNT)
    (hz : zmodel st.constraints = some m)
    (hrender : get_current_model_word m = some g)
    (hapi : api g = some fb) (hwin : allCorrect fb = true) :
    adaptiveLoop api zmodel st = ⟨st.guessed ++ [g], StopReason.won, st.constraints⟩ := by
  rw [adaptiveLoop, dif_pos hlen]
  simp only [hz, hrender, hapi]
  simp [hwin]

theorem openingPhase_fail (api : List Char → Option (List FeedbackItem))
    (g : List Char) (rest : List (List Char)) (st : SolveState)
    (hapi : api g = none) :
    openingPhase api (g :: rest) st = none := by
  rw [openingPhase, hapi]

theorem adaptiveLoop_fail (api : List Char → Option (List FeedbackItem))
    (zmodel : List ZConstraint → Option (Nat → Int)) (st : SolveState)
    (m : Nat → Int) (g : List Char)
    (hlen : st.guessed.length < VALID_GUESS_COUNT)
    (hz : zmodel st.constraints = some m)
    (hrender : get_current_model_word m = some g)
    (hapi : api g = none) :
    adaptiveLoop api zmodel st = ⟨st.guessed ++ [g], StopReason.apiFailure, st.constraints⟩ := by
  rw [adaptiveLoop, dif_pos hlen]
  simp only [hz, hrender, hapi]

/-- Counterexample to C5 as stated: with an evaluator that answers the
first opening guess `handy` (all absent) and fails on the second call,
`solve_wordle_api_norvig` returns `None` — the caller receives no outcome
value at all, and the guess already submitted is discarded rather than
reported. -/
theorem opening_failure_discards_guesses :
    solve_wordle_api_norvig demoApiHandyThenFail (fun _ => none) [] = none := by
  decide

/-- Claim C5 as amended: a failing evaluator call in the adaptive phase
ends the session with an outcome whose guess list holds every guess
submitted, the failing one included; a failing evaluator call in the
opening phase, however, makes `solve_wordle_api_norvig` return `None`,
reporting no guesses. -/
theorem make_guess_failure_behavior :
    (∀ (api : List Char → Option (List FeedbackItem)) (g : List Char)
      (rest : List (List Char)) (st : SolveState),
      api g = none → openingPhase api (g :: rest) st = none) ∧
    (∀ (api : List Char → Option (List FeedbackItem))
      (zmodel : List ZConstraint → Option (Nat → Int)) (st : SolveState)
      (m : Nat → Int) (g : List Char),
      st.guessed.length < VALID_GUESS_COUNT →
      zmodel st.constraints = some m → get_current_model_word m = some g →
      api g = none →
      adaptiveLoop api zmodel st =
        ⟨st.guessed ++ [g], StopReason.apiFailure, st.constraints⟩) :=
  ⟨openingPhase_fail, adaptiveLoop_fail⟩

/-- Witness for the amended C5: a failing evaluator in each phase. -/
theorem make_guess_failure_behavior_witness :
    openingPhase (fun _ => none) ("handy".toList :: []) ⟨[], []⟩ = none ∧
    adaptiveLoop (fun _ => none) demoZModelZero ⟨[], []⟩ =
      ⟨["aaaaa".toList], StopReason.apiFailure, []⟩ :=
  ⟨make_guess_failure_behavior.1 (fun _ => none) "handy".toList [] ⟨[], []⟩ rfl,
   make_guess_failure_behavior.2 (fun _ => none) demoZModelZero ⟨[], []⟩
     (fun _ => 0) "aaaaa".toList (by decide) rfl (by decide) rfl⟩

/-- Claim C6: a feedback list that is entirely `correct` terminates the
session in the `Won` outcome at once, in both phases: the guess list of
the result ends at the winning guess, the constraint state is left exactly
as it was (no merge), and no further solver query or evaluator submission
occurs (the loop returns instead of recursing). -/
theorem win_terminates_session :
    (∀ (api : List Char → Option (List FeedbackItem)) (g : List Char)
      (rest : List (List Char)) (st : SolveState) (fb : List FeedbackItem),
      api g = some fb → allCorrect fb = true →
      openingPhase api (g :: rest) st =
        some (Sum.inr ⟨st.guessed ++ [g], StopReason.won, st.constraints⟩)) ∧
    (∀ (api : List Char → Option (List FeedbackItem))
      (zmodel : List ZConstraint → Option (Nat → Int)) (st : SolveState)
      (m : Nat → Int) (g : List Char) (fb : List FeedbackItem),
      st.guessed.length < VALID_GUESS_COUNT →
      zmodel st.constraints = some m → get_current_model_word m = some g →
      api g = some fb → allCorrect fb = true →
      adaptiveLoop api zmodel st =
        ⟨st.guessed ++ [g], StopReason.won, st.constraints⟩) :=
  ⟨openingPhase_win, adaptiveLoop_win⟩

/-- Witness for C6: an immediately winning guess in each phase. -/
theorem win_terminates_session_witness :
    openingPhase demoApiHandyWins ("handy".toList :: ["swift".toList]) ⟨[], []⟩ =
      some (Sum.inr ⟨["handy".toList], StopReason.won, []⟩) ∧
    adaptiveLoop demoApiAaaaaWins demoZModelZero ⟨[], []⟩ =
      ⟨["aaaaa".toList], StopReason.won, []⟩ :=
  ⟨win_terminates_session.1 demoApiHandyWins "handy".toList ["swift".toList] ⟨[], []⟩
      handyCorrectFeedback (by decide) (by decide),
   win_terminates_session.2 demoApiAaaaaWins demoZModelZero ⟨[], []⟩
      (fun _ => 0) "aaaaa".toList aaaaaCorrectFeedback (by decide) rfl (by decide)
      (by decide) (by decide)⟩

theorem openingPhase_length (api : List Char → Option (List FeedbackItem)) :
    ∀ (gs : List (List Char)) (st : SolveState),
    (∀ st', openingPhase api gs st = some (Sum.inl st') →
      st'.guessed.length ≤ st.guessed.length + gs.length) ∧
    (∀ r, openingPhase api gs st = some (Sum.inr r) →
      r.guesses.length ≤ st.guessed.length + gs.length) := by
  intro gs
  induction gs with
  | nil =>
    intro st
    constructor
    · intro st' h
      rw [openingPhase] at h
      simp at h
      rw [← h]
      simp
    · intro r h
      rw [openingPhase] at h
      simp at h
  | cons g rest ih =>
    intro st
    constructor
    · intro st' h
      rw [openingPhase] at h
      rcases hapi : api g with _ | fb
      · rw [hapi] at h; simp at h
      · rw [hapi] at h
        simp only at h
        by_cases hw : allCorrect fb = true
        · rw [if_pos hw] at h; simp at h
        · rw [if_neg hw] at h
          have := (ih _).1 st' h
          simp at this
          simp
          omega
    · intro r h
      rw [openingPhase] at h
      rcases hapi : api g with _ | fb
      · rw [hapi] at h; simp at h
      · rw [hapi] at h
        simp only at h
        by_cases hw : allCorrect fb = true
        · rw [if_pos hw] at h
          simp at h
          rw [← h]
          simp
        · rw [if_neg hw] at h
          have := (ih _).2 r h
          simp at this
          simp
          omega

theorem adaptiveLoop_length (api : List Char → Option (List FeedbackItem))
    (zmodel : List ZConstraint → Option (Nat → Int)) :
    ∀ (n : Nat) (st : SolveState), VALID_GUESS_COUNT - st.guessed.length ≤ n →
    (adaptiveLoop api zmodel st).guesses.length ≤
      max st.guessed.length VALID_GUESS_COUNT := by
  intro n
  induction n with
  | zero =>
    intro st hn
    rw [adaptiveLoop]
    have hge : ¬ st.guessed.length < VALID_GUESS_COUNT := by omega
    rw [dif_neg hge]
    simp
  | succ n ih =>
    intro st hn
    rw [adaptiveLoop]
    by_cases hlt : st.guessed.length < VALID_GUESS_COUNT
    · rw [dif_pos hlt]
      rcases hz : zmodel st.constraints with _ | m
      · simp
      · simp only
        rcases hr : get_current_model_word m with _ | g
        · simp
        · simp only
          rcases hapi : api g with _ | fb
          · simp
            omega
          · simp only
            by_cases hw : allCorrect fb = true
            · rw [if_pos hw]
              simp
              omega
            · rw [if_neg hw]
              have := ih ⟨st.guessed ++ [g],
                mergeConstraints st.constraints (process_guess_result g fb)⟩
                (by simp; omega)
              simp at this ⊢
              omega
    · rw [dif_neg hlt]
      simp

/-- Claim C7: `solve_wordle_api_norvig` always terminates (it is a total
function of its oracles), and whenever it returns an outcome, the guess
list never exceeds the attempt budget `VALID_GUESS_COUNT`: the opening
phase adds at most the four `NORVIG_GUESSES` and the adaptive loop only
runs while fewer than `VALID_GUESS_COUNT` guesses were made, adding
exactly one guess per iteration. -/
theorem solve_guess_budget (api : List Char → Option (List FeedbackItem))
    (zmodel : List ZConstraint → Option (Nat → Int)) (vocab : List (List Char))
    (r : SolveOutcome) (h : solve_wordle_api_norvig api zmodel vocab = some r) :
    r.guesses.length ≤ VALID_GUESS_COUNT := by
  unfold solve_wordle_api_norvig at h
  rcases hop : openingPhase api NORVIG_GUESSES ⟨[], initConstraints vocab⟩ with _ | x
  · rw [hop] at h; simp at h
  · rw [hop] at h
    rcases x with st | r'
    · simp only at h
      have h1 := (openingPhase_length api NORVIG_GUESSES ⟨[], initConstraints vocab⟩).1 st hop
      have h2 : NORVIG_GUESSES.length = 4 := by rfl
      have h3 := adaptiveLoop_length api zmodel VALID_GUESS_COUNT st (by omega)
      have h4 : st.guessed.length ≤ 4 := by simpa [h2] using h1
      have h5 : VALID_GUESS_COUNT = 10 := rfl
      simp at h
      rw [← h]
      omega
    · simp only at h
      have h1 := (openingPhase_length api NORVIG_GUESSES ⟨[], initConstraints vocab⟩).2 r' hop
      have h2 : NORVIG_GUESSES.length = 4 := by rfl
      have h5 : VALID_GUESS_COUNT = 10 := rfl
      simp at h
      rw [← h]
      simp [h2] at h1
      omega

/-- Witness for C7: an immediately won session has one guess, within the
budget. -/
theorem solve_guess_budget_witness :
    (solve_wordle_api_norvig demoApiHandyWins (fun _ => none) [] =
      some ⟨["handy".toList], StopReason.won, initConstraints []⟩) ∧
    (⟨["handy".toList], StopReason.won,
      initConstraints []⟩ : SolveOutcome).guesses.length ≤ VALID_GUESS_COUNT :=
  ⟨by decide, solve_guess_budget demoApiHandyWins (fun _ => none) []
    ⟨["handy".toList], StopReason.won, initConstraints []⟩ (by decide)⟩

/-- Claim C8: merging the Derived Constraint Set of a new guess only
appends hard constraints, so every model satisfying the accumulated
constraint set after a merge satisfies the set before it — the satisfying
set never grows. -/
theorem merge_monotone (m : Nat → Int) (cs : List ZConstraint) (d : DerivedConstraints)
    (h : satisfiesAll m (mergeConstraints cs d) = true) : satisfiesAll m cs = true := by
  unfold satisfiesAll mergeConstraints at *
  rw [List.all_append] at h
  exact (Bool.and_eq_true .. ▸ h).1

/-- Witness for C8: the `allot` model against the merged `lolly`
constraints. -/
theorem merge_monotone_witness :
    (satisfiesAll demoModelAllot (mergeConstraints demoBaseCs
      (process_guess_result "lolly".toList (feedback "lolly".toList "allot".toList))) = true) ∧
    satisfiesAll demoModelAllot demoBaseCs = true :=
  ⟨by decide, merge_monotone demoModelAllot demoBaseCs
    (process_guess_result "lolly".toList (feedback "lolly".toList "allot".toList)) (by decide)⟩

theorem map_range_getD (w : List Char) (h : w.length = 5) :
    (List.range 5).map (fun i => w.getD i ' ') = w := by
  rcases w with _ | ⟨a, _ | ⟨b, _ | ⟨c, _ | ⟨d, _ | ⟨e, rest⟩⟩⟩⟩⟩ <;> simp at h
  subst h
  rfl

theorem alphabet_get_ofNat (n : Nat) (h1 : 97 ≤ n) (h2 : n ≤ 122) :
    alphabet[(n - 97)]? = some (Char.ofNat n) := by
  interval_cases n <;> decide

theorem alphabet_get_lower {c : Char} (h1 : 97 ≤ c.toNat) (h2 : c.toNat ≤ 122) :
    alphabet[(c.toNat - 97)]? = some c := by
  have h := alphabet_get_ofNat c.toNat h1 h2
  rwa [Char.ofNat_toNat] at h

theorem pythonListIdx_charVal {c : Char} (h1 : 97 ≤ c.toNat) (h2 : c.toNat ≤ 122) :
    pythonListIdx alphabet (charVal c) = some c := by
  unfold pythonListIdx charVal
  rw [if_pos (by omega)]
  have h3 : ((c.toNat : Int) - 97).toNat = c.toNat - 97 := by omega
  rw [h3]
  exact alphabet_get_lower h1 h2

theorem renderChars_eq (m : Nat → Int) (f : Nat → Char) :
    ∀ (js : List Nat), (∀ j ∈ js, pythonListIdx alphabet (m j) = some (f j)) →
    renderChars m js = some (js.map f) := by
  intro js
  induction js with
  | nil => intro _; rfl
  | cons j rest ih =>
    intro h
    rw [renderChars]
    rw [h j (List.mem_cons_self j rest), ih (fun x hx => h x (List.mem_cons_of_mem j hx))]
    simp

/-- Claim C9: with `ALPHABET_RANGE = false` the initial solver state
asserts only the vocabulary legality disjunction, and that disjunction
alone forces every model of any accumulated constraint set containing it
to assign all five letter variables a value in 0..25; consequently
`get_current_model_word` never fails an alphabet index and renders a
5-letter lowercase word belonging to the vocabulary. -/
theorem model_word_legal (vocab : List (List Char)) (cs : List ZConstraint) (m : Nat → Int)
    (hvoc : ∀ w ∈ vocab, w.length = 5 ∧ ∀ c ∈ w, 97 ≤ c.toNat ∧ c.toNat ≤ 122)
    (hmem : ZConstraint.wordDisj (vocab.filter (fun w => w.length == ANSWER_LEN)) ∈ cs)
    (hsat : satisfiesAll m cs = true) :
    ALPHABET_RANGE = false ∧
    ZConstraint.wordDisj (vocab.filter (fun w => w.length == ANSWER_LEN)) ∈
      initConstraints vocab ∧
    (∀ i < ANSWER_LEN, 0 ≤ m i ∧ m i ≤ 25) ∧
    (∃ w, get_current_model_word m = some w ∧ w ∈ vocab ∧ w.length = 5 ∧
      ∀ c ∈ w, 97 ≤ c.toNat ∧ c.toNat ≤ 122) := by
  have heval : evalConstraint m
      (ZConstraint.wordDisj (vocab.filter (fun w => w.length == ANSWER_LEN))) = true :=
    List.all_eq_true.mp hsat _ hmem
  rw [evalConstraint, List.any_eq_true] at heval
  obtain ⟨w, hwV, hwall⟩ := heval
  rw [List.mem_filter] at hwV
  obtain ⟨hwvocab, _⟩ := hwV
  obtain ⟨hwlen, hwlower⟩ := hvoc w hwvocab
  rw [List.all_eq_true] at hwall
  have hmi : ∀ i < 5, m i = charVal (w.getD i ' ') := by
    intro i hi
    have h := hwall i (List.mem_range.mpr (by omega))
    exact eq_of_beq h
  have hchar : ∀ i < 5, 97 ≤ (w.getD i ' ').toNat ∧ (w.getD i ' ').toNat ≤ 122 := by
    intro i hi
    have hilen : i < w.length := by omega
    have hmemw : w.getD i ' ' ∈ w := by
      rw [List.getD_eq_getElem?_getD, List.getElem?_eq_getElem hilen]
      exact List.getElem_mem hilen
    exact hwlower _ hmemw
  refine ⟨rfl, ?_, ?_, ?_⟩
  · simp [initConstraints, ALPHABET_RANGE]
  · intro i hi
    have h1 := hmi i (by simpa [ANSWER_LEN] using hi)
    have h2 := hchar i (by simpa [ANSWER_LEN] using hi)
    unfold charVal at h1
    omega
  · refine ⟨w, ?_, hwvocab, hwlen, hwlower⟩
    unfold get_current_model_word
    have hr := renderChars_eq m (fun i => w.getD i ' ') (List.range ANSWER_LEN) ?_
    · rw [hr]
      rw [show (ANSWER_LEN = 5) from rfl, map_range_getD w hwlen]
    · intro j hj
      have hj5 : j < 5 := by simpa [ANSWER_LEN] using List.mem_range.mp hj
      rw [hmi j hj5]
      exact pythonListIdx_charVal (hchar j hj5).1 (hchar j hj5).2

/-- Witness for C9: the `allot` model against the one-word demo
vocabulary. -/
theorem model_word_legal_witness :
    ((∀ w ∈ demoVocab, w.length = 5 ∧ ∀ c ∈ w, 97 ≤ c.toNat ∧ c.toNat ≤ 122) ∧
     ZConstraint.wordDisj (demoVocab.filter (fun w => w.length == ANSWER_LEN)) ∈ demoCs ∧
     satisfiesAll demoModelAllot demoCs = true) ∧
    (ALPHABET_RANGE = false ∧
     ZConstraint.wordDisj (demoVocab.filter (fun w => w.length == ANSWER_LEN)) ∈
       initConstraints demoVocab ∧
     (∀ i < ANSWER_LEN, 0 ≤ demoModelAllot i ∧ demoModelAllot i ≤ 25) ∧
     (∃ w, get_current_model_word demoModelAllot = some w ∧ w ∈ demoVocab ∧
       w.length = 5 ∧ ∀ c ∈ w, 97 ≤ c.toNat ∧ c.toNat ≤ 122)) :=
  ⟨⟨by decide, by decide, by decide⟩,
   model_word_legal demoVocab demoCs demoModelAllot (by decide) (by decide) (by decide)⟩

theorem toLower_lower {c : Char} (h : pyIsAlpha c = true) :
    97 ≤ (Char.toLower c).toNat ∧ (Char.toLower c).toNat ≤ 122 := by
  unfold pyIsAlpha at h
  rw [decide_eq_true_eq] at h
  rcases h with h | h
  · have h1 : Char.toLower c = Char.ofNat (c.toNat + 32) := by
      unfold Char.toLower
      rw [if_pos ⟨h.1, h.2⟩]
    rw [h1]
    have h2 : ∀ n, 65 ≤ n → n ≤ 90 → (Char.ofNat (n + 32)).toNat = n + 32 := by
      intro n hn1 hn2
      interval_cases n <;> decide
    have h3 := h2 c.toNat h.1 h.2
    omega
  · have h1 : Char.toLower c = c := by
      unfold Char.toLower
      rw [if_neg]
      omega
    rw [h1]
    exact h

/-- Claim C10: for every corpus, `get_wordle_word_lists` returns two
duplicate-free lexicographically sorted lists, disjoint from each other;
every element is a 5-letter lowercase word; their union holds exactly the
distinct lowercased 5-letter alphabetic corpus words; the first list is
the 20% prefix (length `len * 20 / 100`) of the sorted distinct words, so
each answer precedes each valid guess. -/
theorem get_wordle_word_lists_spec (corpus : List (List Char)) :
    ((get_wordle_word_lists corpus).1.Nodup ∧ (get_wordle_word_lists corpus).2.Nodup) ∧
    (List.Sorted (· ≤ ·) (get_wordle_word_lists corpus).1 ∧
      List.Sorted (· ≤ ·) (get_wordle_word_lists corpus).2) ∧
    (get_wordle_word_lists corpus).1.Disjoint (get_wordle_word_lists corpus).2 ∧
    (∀ w ∈ (get_wordle_word_lists corpus).1 ++ (get_wordle_word_lists corpus).2,
      w.length = 5 ∧ ∀ c ∈ w, 97 ≤ c.toNat ∧ c.toNat ≤ 122) ∧
    (∀ x, x ∈ (get_wordle_word_lists corpus).1 ++ (get_wordle_word_lists corpus).2 ↔
      x ∈ five_letter_words corpus) ∧
    ((get_wordle_word_lists corpus).1 ++ (get_wordle_word_lists corpus).2).Nodup ∧
    (get_wordle_word_lists corpus).1.length = (sorted_words corpus).length * 20 / 100 ∧
    (∀ x ∈ (get_wordle_word_lists corpus).1,
      ∀ y ∈ (get_wordle_word_lists corpus).2, x ≤ y) := by
  have hperm : List.Perm (sorted_words corpus) ((five_letter_words corpus).dedup) :=
    List.perm_insertionSort _ _
  have hnodup : (sorted_words corpus).Nodup :=
    hperm.nodup_iff.mpr (List.nodup_dedup _)
  have hsorted : List.Sorted (· ≤ ·) (sorted_words corpus) :=
    List.sorted_insertionSort _ _
  have htd : (sorted_words corpus).take (answers_count corpus) ++
      (sorted_words corpus).drop (answers_count corpus) = sorted_words corpus :=
    List.take_append_drop _ _
  have hfst : (get_wordle_word_lists corpus).1 =
      (sorted_words corpus).take (answers_count corpus) := rfl
  have hsnd : (get_wordle_word_lists corpus).2 =
      (sorted_words corpus).drop (answers_count corpus) := rfl
  have hmem : ∀ x, x ∈ (get_wordle_word_lists corpus).1 ++ (get_wordle_word_lists corpus).2 ↔
      x ∈ five_letter_words corpus := by
    intro x
    rw [hfst, hsnd, htd, hperm.mem_iff, List.mem_dedup]
  have hunion : ((get_wordle_word_lists corpus).1 ++
      (get_wordle_word_lists corpus).2).Nodup := by
    rw [hfst, hsnd, htd]
    exact hnodup
  have helem : ∀ w ∈ (get_wordle_word_lists corpus).1 ++ (get_wordle_word_lists corpus).2,
      w.length = 5 ∧ ∀ c ∈ w, 97 ≤ c.toNat ∧ c.toNat ≤ 122 := by
    intro x hx
    rw [hmem x] at hx
    unfold five_letter_words at hx
    rw [List.mem_map] at hx
    obtain ⟨w, hwmem, rfl⟩ := hx
    rw [List.mem_filter] at hwmem
    obtain ⟨_, hcond⟩ := hwmem
    rw [Bool.and_eq_true, beq_iff_eq] at hcond
    obtain ⟨hlen, halpha⟩ := hcond
    unfold pyIsAlphaWord at halpha
    rw [Bool.and_eq_true, List.all_eq_true] at halpha
    constructor
    · unfold pyLowerWord
      rw [List.length_map]
      exact hlen
    · intro c hc
      unfold pyLowerWord at hc
      rw [List.mem_map] at hc
      obtain ⟨c0, hc0, rfl⟩ := hc
      exact toLower_lower (halpha.2 c0 hc0)
  refine ⟨⟨?_, ?_⟩, ⟨?_, ?_⟩, ?_, helem, hmem, hunion, ?_, ?_⟩
  · exact hnodup.sublist (List.take_sublist _ _)
  · exact hnodup.sublist (List.drop_sublist _ _)
  · exact hsorted.sublist (List.take_sublist _ _)
  · exact hsorted.sublist (List.drop_sublist _ _)
  · exact (List.nodup_append.mp hunion).2.2
  · rw [hfst, List.length_take]
    have h2 : answers_count corpus ≤ (sorted_words corpus).length := by
      unfold answers_count
      omega
    unfold answers_count
    omega
  · intro x hx y hy
    have hpw : List.Pairwise (· ≤ ·) ((get_wordle_word_lists corpus).1 ++
        (get_wordle_word_lists corpus).2) := by
      rw [hfst, hsnd, htd]
      exact hsorted
    exact (List.pairwise_append.mp hpw).2.2 x hx y hy

/-- Witness for C10 on a small demo corpus. -/
theorem get_wordle_word_lists_spec_witness :
    ((get_wordle_word_lists demoCorpus).1.Nodup ∧
      (get_wordle_word_lists demoCorpus).2.Nodup) ∧
    (List.Sorted (· ≤ ·) (get_wordle_word_lists demoCorpus).1 ∧
      List.Sorted (· ≤ ·) (get_wordle_word_lists demoCorpus).2) ∧
    (get_wordle_word_lists demoCorpus).1.Disjoint (get_wordle_word_lists demoCorpus).2 ∧
    (∀ w ∈ (get_wordle_word_lists demoCorpus).1 ++ (get_wordle_word_lists demoCorpus).2,
      w.length = 5 ∧ ∀ c ∈ w, 97 ≤ c.toNat ∧ c.toNat ≤ 122) ∧
    (∀ x, x ∈ (get_wordle_word_lists demoCorpus).1 ++ (get_wordle_word_lists demoCorpus).2 ↔
      x ∈ five_letter_words demoCorpus) ∧
    ((get_wordle_word_lists demoCorpus).1 ++ (get_wordle_word_lists demoCorpus).2).Nodup ∧
    (get_wordle_word_lists demoCorpus).1.length =
      (sorted_words demoCorpus).length * 20 / 100 ∧
    (∀ x ∈ (get_wordle_word_lists demoCorpus).1,
      ∀ y ∈ (get_wordle_word_lists demoCorpus).2, x ≤ y) :=
  get_wordle_word_lists_spec demoCorpus

end WordleSolver
